import Mathlib

/-
  Verification development for the ai-lecture-mate recorder core
  (src/components/LectureRecorder.tsx).

  Texts are modelled as `List Char` (one entry per UTF-16 unit of the
  JavaScript string; all characters appearing in this development are
  BMP code points, where the two coincide).  Audio levels are modelled
  as `ℚ` (JavaScript numbers produced by an exact mean of byte values).
  Event-driven state mutation is modelled, as the design notes of the
  spec prescribe, as a single step function on an explicit session
  state consumed by one event at a time on the single logical thread.
-/

namespace LectureMate

/-- Whitespace test, modelling the JavaScript regex class `\s` on the
characters that can actually occur here (space, tab, LF, CR, FF, VT). -/
def isWsChar (c : Char) : Bool :=
  c = ' ' || c = '\t' || c = '\n' || c = '\r' || c = '\x0c' || c = '\x0b'

/-- The punctuation class `[.,!?;:]` stripped by `extractKeywords`. -/
def isPunctChar (c : Char) : Bool :=
  c = '.' || c = ',' || c = '!' || c = '?' || c = ';' || c = ':'

/-- Sentence-terminating punctuation class `[.!?]` used by `generateSummary`. -/
def isSentEnd (c : Char) : Bool :=
  c = '.' || c = '!' || c = '?'

/-- `String.prototype.toLowerCase` restricted to its ASCII action
(`A`–`Z` map to `a`–`z`); Unicode lowercasing fixes every Hangul
character and never produces one, which is all the development uses. -/
def charToLower (c : Char) : Char :=
  if 65 ≤ c.toNat ∧ c.toNat ≤ 90 then Char.ofNat (c.toNat + 32) else c

/-- Left-to-right scanner for `text.split(/\s+/)`: `inRun` records
whether the previous character belonged to a whitespace run, `cur` the
(reversed) field being read. -/
def splitWsAux : Bool → List Char → List Char → List (List Char)
  | _, cur, [] => [cur.reverse]
  | inRun, cur, c :: rest =>
    if isWsChar c then
      if inRun then splitWsAux true cur rest
      else cur.reverse :: splitWsAux true [] rest
    else splitWsAux false (c :: cur) rest

/-- `text.split(/\s+/)`: split on maximal runs of whitespace, keeping
the empty pieces JavaScript produces at a leading or trailing run. -/
def splitWs (l : List Char) : List (List Char) :=
  splitWsAux false [] l

/-- `text.split(/[.!?]/)`: split at every single occurrence of a
sentence-terminating character. -/
def splitPunct : List Char → List (List Char)
  | [] => [[]]
  | c :: rest =>
    if isSentEnd c then [] :: splitPunct rest
    else
      match splitPunct rest with
      | [] => [[c]]
      | w :: ws => (c :: w) :: ws

/-- `String.prototype.trim`: drop whitespace from both ends. -/
def trimList (l : List Char) : List Char :=
  ((l.dropWhile isWsChar).reverse.dropWhile isWsChar).reverse

/-- `word.replace(/[.,!?;:]/g, '')`: remove punctuation characters. -/
def stripPunct (w : List Char) : List Char :=
  w.filter (fun c => !isPunctChar c)

/-- `haystack.includes(needle)`: substring containment. -/
def containsSub (w k : List Char) : Bool :=
  decide (k <:+: w)

/-- Counts the non-overlapping left-to-right occurrences of the
non-empty pattern `pat` in the third argument.  The fuel argument is
initialised to the text length; every step consumes one unit of fuel
and at least one character, so the fuel never runs out first. -/
def countOccsAux (pat : List Char) : Nat → List Char → Nat
  | _, [] => 0
  | 0, _ => 0
  | fuel + 1, c :: rest =>
    if pat.isPrefixOf (c :: rest) then
      1 + countOccsAux pat fuel ((c :: rest).drop pat.length)
    else countOccsAux pat fuel rest

/-- `text.split(pat).length - 1`, the occurrence count used by the
repeated-token rule.  `extractKeywords` only ever calls it with a
pattern of length ≥ 2, so the empty-pattern value is irrelevant. -/
def countOccs (pat t : List Char) : Nat :=
  match pat with
  | [] => 0
  | _ :: _ => countOccsAux pat t.length t

/-- The fixed list `HIGHLIGHT_KEYWORDS` from LectureRecorder.tsx. -/
def HIGHLIGHT_KEYWORDS : List (List Char) :=
  [['중', '요'], ['핵', '심'], ['시', '험'], ['꼭'], ['반', '드', '시'],
   ['기', '억'], ['주', '목'], ['포', '인', '트'], ['정', '리'], ['요', '약'],
   ['결', '론'], ['강', '조'], ['특', '히'], ['주', '의'], ['필', '수'],
   ['중', '점']]

/-- `shouldHighlight(text, audioLevel)` from LectureRecorder.tsx. -/
def shouldHighlight (text : List Char) (audioLevel : ℚ) : Bool :=
  let lowerText := text.map charToLower
  let hasKeyword := HIGHLIGHT_KEYWORDS.any (fun keyword => containsSub lowerText keyword)
  let hasEmphasis : Bool := decide (audioLevel > 80)
  let hasEmphasisPunctuation := text.any (fun c => c = '!' || c = '?')
  hasKeyword || (hasEmphasis && decide (text.length > 10)) || hasEmphasisPunctuation

/-- The three-character ellipsis marker appended on truncation. -/
def ellipsis : List Char := ['.', '.', '.']

/-- `generateSummary(text)` from LectureRecorder.tsx: take the first
piece of the split (`sentences[0]`), trim it; if non-empty return it,
truncated to 97 characters plus an ellipsis when longer than 100;
otherwise apply the same truncation rule to the whole text. -/
def generateSummary (text : List Char) : List Char :=
  let sentences := splitPunct text
  let firstSentence := trimList (sentences.getD 0 [])
  if firstSentence.length > 0 then
    if firstSentence.length > 100 then firstSentence.take 97 ++ ellipsis
    else firstSentence
  else
    if text.length > 100 then text.take 97 ++ ellipsis else text

/-- Whether `words[index - 1]` contains a highlight keyword — the
adjacency test `index > 0 && HIGHLIGHT_KEYWORDS.some(k => words[index - 1].includes(k))`. -/
def prevHasKeyword (words : List (List Char)) (index : Nat) : Bool :=
  decide (0 < index) && HIGHLIGHT_KEYWORDS.any (fun k => containsSub (words.getD (index - 1) []) k)

/-- One iteration of the `words.forEach` body of `extractKeywords`:
given the accumulated pushes and the pair (index, word), push the
punctuation-stripped word once per satisfied condition. -/
def kwStep (text : List Char) (words : List (List Char))
    (acc : List (List Char)) (iw : Nat × List Char) : List (List Char) :=
  let cleanWord := stripPunct iw.2
  if 2 ≤ cleanWord.length then
    let acc1 := if prevHasKeyword words iw.1 then acc ++ [cleanWord] else acc
    if 2 ≤ countOccs cleanWord text ∧ acc1.length < 5 then acc1 ++ [cleanWord]
    else acc1
  else acc

/-- The raw `keywords` array of `extractKeywords` just before the final
`[...new Set(keywords)].slice(0, 5)`. -/
def kwsRaw (text : List Char) : List (List Char) :=
  (splitWs text).enum.foldl (kwStep text (splitWs text)) []

/-- `[...new Set(l)]`: deduplicate keeping the first occurrence. -/
def dedupFirstAux (seen : List (List Char)) : List (List Char) → List (List Char)
  | [] => []
  | w :: ws =>
    if w ∈ seen then dedupFirstAux seen ws
    else w :: dedupFirstAux (w :: seen) ws

/-- `[...new Set(l)]` with an empty starting set. -/
def dedupFirst (l : List (List Char)) : List (List Char) :=
  dedupFirstAux [] l

/-- `extractKeywords(text)` from LectureRecorder.tsx. -/
def extractKeywords (text : List Char) : List (List Char) :=
  (dedupFirst (kwsRaw text)).take 5

/-- The audio level produced by `analyzeAudio`: the arithmetic mean of
the byte-valued frequency bins,
`dataArray.reduce((a, b) => a + b) / dataArray.length`. -/
def audioAverage (bins : List Nat) : ℚ :=
  (bins.sum : ℚ) / (bins.length : ℚ)

/-- The `importance` variants of a Highlight. -/
inductive Importance where
  | high
  | medium
  | low
  deriving DecidableEq

/-- A TranscriptSegment (App.tsx).  The random `id` string is display
glue and not modelled. -/
structure TranscriptSegment where
  timestamp : Nat
  text : List Char
  isHighlight : Bool
  deriving DecidableEq

/-- A Highlight (App.tsx).  The random `id` string is not modelled. -/
structure Highlight where
  timestamp : Nat
  text : List Char
  summary : List Char
  keywords : List (List Char)
  importance : Importance
  deriving DecidableEq

/-- The session state of LectureRecorder: the `useState` cells that the
recording logic reads or writes.  Display-only cells (save-dialog
fields, the `aiProcessing` spinner flag) are omitted. -/
structure SessionState where
  isRecording : Bool
  isPaused : Bool
  duration : Nat
  transcript : List TranscriptSegment
  highlights : List Highlight
  currentText : List Char
  audioLevel : ℚ
  isSupported : Bool
  permissionDenied : Bool
  error : Option (List Char)
  showSaveDialog : Bool
  deriving DecidableEq

/-- The `useState` initial values of LectureRecorder. -/
def initialState : SessionState :=
  { isRecording := false
    isPaused := false
    duration := 0
    transcript := []
    highlights := []
    currentText := []
    audioLevel := 0
    isSupported := true
    permissionDenied := false
    error := none
    showSaveDialog := false }

/-- The failure modes of `setupAudioRecording`'s catch branch. -/
inductive StartError where
  | notAllowed
  | notFound
  | other
  deriving DecidableEq

/-- Error message set on a denied microphone permission. -/
def permissionDeniedMsg : List Char :=
  ("마이크 접근 권한이 거부되었습니다. 브라우저 설정에서 마이크 권한을 허용해주세요.").toList

/-- Error message set when no microphone is found. -/
def micNotFoundMsg : List Char :=
  ("마이크를 찾을 수 없습니다. 마이크가 연결되어 있는지 확인해주세요.").toList

/-- Error message set on any other microphone acquisition fault. -/
def micErrorMsg : List Char :=
  ("마이크 접근 중 오류가 발생했습니다.").toList

/-- `recognition.onresult`: the handler, as a function of the current
session state and the interim/final transcripts accumulated from the
event's result list.  An interim text replaces `currentText` when
non-empty; a non-empty final text is classified, appended to the
transcript as one segment stamped with the current duration, clears
`currentText`, and appends one Highlight exactly when classified. -/
def onResult (s : SessionState) (interim final : List Char) : SessionState :=
  let s1 := if interim ≠ [] then { s with currentText := interim } else s
  if final ≠ [] then
    let isHl := shouldHighlight final s.audioLevel
    let seg : TranscriptSegment :=
      { timestamp := s.duration, text := final, isHighlight := isHl }
    let s2 := { s1 with transcript := s1.transcript ++ [seg], currentText := [] }
    if isHl then
      let hl : Highlight :=
        { timestamp := s.duration
          text := final
          summary := generateSummary final
          keywords := extractKeywords final
          importance := Importance.high }
      { s2 with highlights := s2.highlights ++ [hl] }
    else s2
  else s1

/-- One tick of the duration timer.  The effect installs the interval
only while `isRecording && !isPaused`, and the tick adds one second. -/
def onTick (s : SessionState) : SessionState :=
  if s.isRecording = true ∧ s.isPaused = false then { s with duration := s.duration + 1 }
  else s

/-- One run of `analyzeAudio` on a frequency snapshot: store the mean
of the byte-valued bins as the current audio level. -/
def onAudioSample (s : SessionState) (bins : List Nat) : SessionState :=
  { s with audioLevel := audioAverage bins }

/-- The state effect of a successful `handleStartRecording`: the
unsupported guard returns early; otherwise `setupAudioRecording`
clears the permission flag and error, then recording starts unpaused. -/
def onStartOk (s : SessionState) : SessionState :=
  if s.isSupported = true then
    { s with isRecording := true, isPaused := false, permissionDenied := false, error := none }
  else s

/-- The state effect of a failed `handleStartRecording`: the catch
branch of `setupAudioRecording` records an error message (and the
permission flag when access was denied) and nothing else changes. -/
def onStartFail (s : SessionState) (err : StartError) : SessionState :=
  match err with
  | StartError.notAllowed =>
      { s with permissionDenied := true, error := some permissionDeniedMsg }
  | StartError.notFound => { s with error := some micNotFoundMsg }
  | StartError.other => { s with error := some micErrorMsg }

/-- `handlePauseResume`: toggle the paused flag (stopping or restarting
the engines is external); no other state cell is touched. -/
def onPauseResume (s : SessionState) : SessionState :=
  if s.isPaused = true then { s with isPaused := false }
  else { s with isPaused := true }

/-- `handleStopRecording`: tear the engines down (external), leave
Recording and open the save dialog; no other state cell is touched. -/
def onStop (s : SessionState) : SessionState :=
  { s with isRecording := false, showSaveDialog := true }

/-- The inbound events of the session, as the spec's design notes
prescribe: one tagged union consumed by a single step function. -/
inductive Event where
  | tick
  | result (interim final : List Char)
  | audioSample (bins : List Nat)
  | startOk
  | startFail (err : StartError)
  | pauseResume
  | stopRec

/-- The single step function dispatching an event to its handler. -/
def step (s : SessionState) : Event → SessionState
  | Event.tick => onTick s
  | Event.result interim final => onResult s interim final
  | Event.audioSample bins => onAudioSample s bins
  | Event.startOk => onStartOk s
  | Event.startFail err => onStartFail s err
  | Event.pauseResume => onPauseResume s
  | Event.stopRec => onStop s

theorem toNat_ofNat_small (m : Nat) (h : m < 55296) : (Char.ofNat m).toNat = m := by
  have hv : m.isValidChar := Or.inl h
  rw [Char.ofNat, dif_pos hv]
  rfl

theorem charToLower_eq_iff (c d : Char) (hc : 122 < c.toNat) :
    charToLower d = c ↔ d = c := by
  constructor
  · intro h
    by_cases hd : 65 ≤ d.toNat ∧ d.toNat ≤ 90
    · exfalso
      rw [charToLower, if_pos hd] at h
      have h1 : (Char.ofNat (d.toNat + 32)).toNat = d.toNat + 32 :=
        toNat_ofNat_small _ (by omega)
      have h2 := congrArg Char.toNat h
      rw [h1] at h2
      omega
    · rwa [charToLower, if_neg hd] at h
  · intro h
    subst h
    rw [charToLower, if_neg]
    omega

theorem map_charToLower_eq (l k : List Char) (hk : ∀ c ∈ k, 122 < c.toNat)
    (h : l.map charToLower = k) : l = k := by
  induction l generalizing k with
  | nil =>
    simp only [List.map_nil] at h
    exact h
  | cons a l ih =>
    cases k with
    | nil => simp at h
    | cons b m =>
      simp only [List.map_cons, List.cons.injEq] at h
      have hb : 122 < b.toNat := hk b (List.mem_cons_self b m)
      have hab : a = b := (charToLower_eq_iff b a hb).mp h.1
      have hlm : l = m := ih m (fun c hc => hk c (List.mem_cons_of_mem b hc)) h.2
      rw [hab, hlm]

theorem map_charToLower_fix (k : List Char) (hk : ∀ c ∈ k, 122 < c.toNat) :
    k.map charToLower = k := by
  induction k with
  | nil => rfl
  | cons a l ih =>
    have ha : 122 < a.toNat := hk a (List.mem_cons_self a l)
    have h1 : charToLower a = a := (charToLower_eq_iff a a ha).mpr rfl
    simp only [List.map_cons, h1, List.cons.injEq, true_and]
    exact ih (fun c hc => hk c (List.mem_cons_of_mem a hc))

theorem infix_map_exists (f : Char → Char) (k l : List Char)
    (h : k <:+: l.map f) : ∃ m, m <:+: l ∧ m.map f = k := by
  obtain ⟨s, t, hst⟩ := h
  have hst2 : l.map f = s ++ (k ++ t) := by rw [← hst]; simp
  rw [List.map_eq_append_iff] at hst2
  obtain ⟨s1, s2, hl, hs1, hs2⟩ := hst2
  rw [List.map_eq_append_iff] at hs2
  obtain ⟨m, t1, hs2eq, hm, ht1⟩ := hs2
  refine ⟨m, ⟨s1, t1, ?_⟩, hm⟩
  rw [hl, hs2eq]
  simp

theorem keyword_infix_lower_iff (k text : List Char) (hk : ∀ c ∈ k, 122 < c.toNat) :
    k <:+: text.map charToLower ↔ k <:+: text := by
  constructor
  · intro h
    obtain ⟨m, hm, hmap⟩ := infix_map_exists charToLower k text h
    rwa [map_charToLower_eq m k hk hmap] at hm
  · intro h
    have h2 := List.IsInfix.map charToLower h
    rwa [map_charToLower_fix k hk] at h2

/-- C2: `shouldHighlight(text, audioLevel)` returns true exactly when
the text contains one of the 16 highlight keywords as a substring, or
the audio level strictly exceeds 80 with the text strictly longer than
10 characters, or the text contains a `!` or `?` character. -/
theorem spec_C2 (text : List Char) (audioLevel : ℚ) :
    shouldHighlight text audioLevel = true ↔
      ((∃ k ∈ HIGHLIGHT_KEYWORDS, k <:+: text) ∨
        (80 < audioLevel ∧ 10 < text.length) ∨
        (∃ c ∈ text, c = '!' ∨ c = '?')) := by
  have hk : ∀ k ∈ HIGHLIGHT_KEYWORDS, ∀ c ∈ k, 122 < c.toNat := by decide
  rw [shouldHighlight]
  simp only [containsSub, List.any_eq_true, Bool.or_eq_true, Bool.and_eq_true,
    decide_eq_true_eq, gt_iff_lt]
  constructor
  · rintro ((⟨k, hkmem, hinf⟩ | ⟨h80, hlen⟩) | ⟨c, hc, hco⟩)
    · exact Or.inl ⟨k, hkmem, (keyword_infix_lower_iff k text (hk k hkmem)).mp hinf⟩
    · exact Or.inr (Or.inl ⟨h80, hlen⟩)
    · exact Or.inr (Or.inr ⟨c, hc, hco⟩)
  · rintro (⟨k, hkmem, hinf⟩ | ⟨h80, hlen⟩ | ⟨c, hc, hco⟩)
    · exact Or.inl (Or.inl ⟨k, hkmem, (keyword_infix_lower_iff k text (hk k hkmem)).mpr hinf⟩)
    · exact Or.inl (Or.inr ⟨h80, hlen⟩)
    · exact Or.inr ⟨c, hc, hco⟩

/-- C10: on the empty fragment the pipeline is total and degenerate:
`shouldHighlight` is false at every audio level (the loudness branch
needs more than 10 characters), `extractKeywords` is empty and
`generateSummary` is empty. -/
theorem spec_C10 :
    (∀ audioLevel : ℚ, shouldHighlight [] audioLevel = false) ∧
      extractKeywords [] = [] ∧ generateSummary [] = [] := by
  refine ⟨fun audioLevel => ?_, by decide, by decide⟩
  have h : shouldHighlight [] audioLevel =
      ((decide (audioLevel > 80) && false) || false) := rfl
  rw [h]
  simp

/-- C3 fails as stated: on the text `".가나"` the split has `"가나"` as
its only (hence first) non-empty piece, yet `generateSummary` returns
the whole text, because the code takes piece index 0, which is empty
here, and falls back to the full text. -/
theorem spec_C3_counterexample :
    (splitPunct ['.', '가', '나']).filter (fun p => !p.isEmpty) = [['가', '나']] ∧
      generateSummary ['.', '가', '나'] = ['.', '가', '나'] ∧
      generateSummary ['.', '가', '나'] ≠ ['가', '나'] := by
  decide

/-- C3 amended: `generateSummary` takes the piece before the first
sentence terminator (piece index 0 of the split), trims it; when the
trimmed piece is non-empty it is returned, truncated to 97 characters
plus an ellipsis when longer than 100; otherwise the whole text is
returned under the same truncation rule.  The result never exceeds 100
characters. -/
theorem spec_C3_amended (text : List Char) :
    (generateSummary text).length ≤ 100 ∧
      generateSummary text =
        (if 0 < (trimList ((splitPunct text).getD 0 [])).length then
          (if 100 < (trimList ((splitPunct text).getD 0 [])).length then
            (trimList ((splitPunct text).getD 0 [])).take 97 ++ ellipsis
          else trimList ((splitPunct text).getD 0 []))
        else if 100 < text.length then text.take 97 ++ ellipsis else text) := by
  have heq : generateSummary text =
      (if 0 < (trimList ((splitPunct text).getD 0 [])).length then
        (if 100 < (trimList ((splitPunct text).getD 0 [])).length then
          (trimList ((splitPunct text).getD 0 [])).take 97 ++ ellipsis
        else trimList ((splitPunct text).getD 0 []))
      else if 100 < text.length then text.take 97 ++ ellipsis else text) := rfl
  refine ⟨?_, heq⟩
  have hlen : ∀ l : List Char, (l.take 97 ++ ellipsis).length = min 97 l.length + 3 := by
    intro l
    simp [ellipsis]
  rw [heq]
  split_ifs with h1 h2 h3
  · rw [hlen]
    omega
  · omega
  · rw [hlen]
    omega
  · omega

/-- C1: processing a finalized fragment while Recording appends exactly
one TranscriptSegment stamped with the current duration and the
classifier's flag, and appends, in the same step and after the segment,
one Highlight carrying the same timestamp and source text with
importance `high` if and only if `shouldHighlight` holds for the
fragment and the audio level at finalization. -/
theorem spec_C1 (s : SessionState) (interim final : List Char)
    (hrec : s.isRecording = true) (hfin : final ≠ []) :
    (onResult s interim final).transcript =
      s.transcript ++
        [{ timestamp := s.duration, text := final,
           isHighlight := shouldHighlight final s.audioLevel }] ∧
    (onResult s interim final).highlights =
      (if shouldHighlight final s.audioLevel then
        s.highlights ++
          [{ timestamp := s.duration, text := final,
             summary := generateSummary final,
             keywords := extractKeywords final,
             importance := Importance.high }]
      else s.highlights) := by
  rw [onResult]
  by_cases hint : interim ≠ [] <;>
    by_cases hhl : shouldHighlight final s.audioLevel = true <;>
      simp [hint, hfin, hhl]

theorem spec_C1_witness :
    (onResult { initialState with isRecording := true } [] ['중', '요']).transcript =
      [{ timestamp := 0, text := ['중', '요'], isHighlight := true }] ∧
    (onResult { initialState with isRecording := true } [] ['중', '요']).highlights =
      [{ timestamp := 0, text := ['중', '요'], summary := ['중', '요'],
         keywords := [], importance := Importance.high }] :=
  spec_C1 { initialState with isRecording := true } [] ['중', '요'] rfl (by decide)

/-- C5: an interim (non-final) recognition event never appends to the
transcript or highlight sequences — it at most replaces the single
current interim text — and the interim text is cleared the moment a
final fragment is processed. -/
theorem spec_C5 (s : SessionState) (interim final : List Char) :
    onResult s interim [] =
      (if interim = [] then s else { s with currentText := interim }) ∧
    (final ≠ [] → (onResult s interim final).currentText = []) := by
  constructor
  · rw [onResult]
    by_cases h : interim = [] <;> simp [h]
  · intro hfin
    rw [onResult]
    by_cases h : interim ≠ [] <;>
      by_cases hhl : shouldHighlight final s.audioLevel = true <;>
        simp [h, hfin, hhl]

theorem spec_C5_witness :
    (onResult initialState ['가'] [] = { initialState with currentText := ['가'] }) ∧
    ((onResult initialState ['가'] ['나']).currentText = []) :=
  ⟨(spec_C5 initialState ['가'] ['나']).1, (spec_C5 initialState ['가'] ['나']).2 (by decide)⟩

theorem step_duration_mono (s : SessionState) (e : Event) :
    s.duration ≤ (step s e).duration := by
  cases e with
  | tick =>
    rw [step, onTick]
    split_ifs <;> simp
  | result interim final =>
    rw [step, onResult]
    by_cases h : interim ≠ [] <;>
      by_cases hf : final ≠ [] <;>
        by_cases hhl : shouldHighlight final s.audioLevel = true <;>
          simp [h, hf, hhl]
  | audioSample bins => exact le_refl _
  | startOk =>
    rw [step, onStartOk]
    split_ifs <;> simp
  | startFail err => cases err <;> exact le_refl _
  | pauseResume =>
    rw [step, onPauseResume]
    split_ifs <;> simp
  | stopRec => exact le_refl _

theorem foldl_step_duration (es : List Event) :
    ∀ s : SessionState, s.duration ≤ (es.foldl step s).duration := by
  induction es with
  | nil => intro s; simp
  | cons e es ih =>
    intro s
    exact le_trans (step_duration_mono s e) (ih (step s e))

/-- C6: the elapsed duration is monotonically non-decreasing over the
whole session: it advances by one second per tick exactly while
Recording and not Paused, stays fixed on a tick while Paused or not
Recording, is untouched by pause/resume and stop, and never decreases
along any event trace. -/
theorem spec_C6 (s : SessionState) :
    (∀ e : Event, s.duration ≤ (step s e).duration) ∧
    (s.isRecording = true → s.isPaused = false →
      (step s Event.tick).duration = s.duration + 1) ∧
    (s.isRecording = false → (step s Event.tick).duration = s.duration) ∧
    (s.isPaused = true → (step s Event.tick).duration = s.duration) ∧
    ((step s Event.pauseResume).duration = s.duration) ∧
    ((step s Event.stopRec).duration = s.duration) ∧
    (∀ es : List Event, s.duration ≤ (es.foldl step s).duration) := by
  refine ⟨fun e => step_duration_mono s e, ?_, ?_, ?_, ?_, rfl,
    fun es => foldl_step_duration es s⟩
  · intro h1 h2
    rw [step, onTick, if_pos ⟨h1, h2⟩]
  · intro h1
    rw [step, onTick, if_neg]
    rintro ⟨ha, hb⟩
    rw [h1] at ha
    exact Bool.false_ne_true ha
  · intro h1
    rw [step, onTick, if_neg]
    rintro ⟨ha, hb⟩
    rw [h1] at hb
    exact Bool.false_ne_true hb.symm
  · rw [step, onPauseResume]
    split_ifs <;> rfl

theorem spec_C6_witness :
    (step { initialState with isRecording := true } Event.tick).duration = 0 + 1 ∧
    (step initialState Event.tick).duration = 0 ∧
    (step { initialState with isPaused := true } Event.tick).duration = 0 :=
  ⟨(spec_C6 { initialState with isRecording := true }).2.1 rfl rfl,
   (spec_C6 initialState).2.2.1 rfl,
   (spec_C6 { initialState with isPaused := true }).2.2.2.1 rfl⟩

/-- C7 fails as stated: pausing from Recording with a pending interim
text leaves `currentText` unchanged — `handlePauseResume` and
`handleStopRecording` never clear it — so immediately after the call
the interim text is not empty. -/
theorem spec_C7_counterexample :
    ({ initialState with isRecording := true, currentText := ['가'] }
        : SessionState).isRecording = true ∧
    ({ initialState with isRecording := true, currentText := ['가'] }
        : SessionState).isPaused = false ∧
    (onPauseResume
        { initialState with isRecording := true, currentText := ['가'] }).currentText ≠ [] ∧
    (onStop
        { initialState with isRecording := true, currentText := ['가'] }).currentText ≠ [] := by
  decide

/-- C7 amended: pause() and stop() leave the interim text untouched
(neither clears it nor finalizes it): no TranscriptSegment is created
from it by the call, and the transcript is unchanged.  The interim text
is only cleared when a later final fragment is processed. -/
theorem spec_C7_amended (s : SessionState) :
    (onPauseResume s).currentText = s.currentText ∧
    (onPauseResume s).transcript = s.transcript ∧
    (onStop s).currentText = s.currentText ∧
    (onStop s).transcript = s.transcript := by
  refine ⟨?_, ?_, rfl, rfl⟩ <;>
    (rw [onPauseResume]; split_ifs <;> rfl)

/-- C8 fails as stated: the audio level is the plain arithmetic mean of
byte-valued (0–255) frequency bins, so a loud snapshot of 128 bins all
equal to 200 yields level 200, outside the claimed 0–100 scale. -/
theorem spec_C8_counterexample :
    (∀ b ∈ List.replicate 128 (200 : Nat), b ≤ 255) ∧
    ¬(audioAverage (List.replicate 128 (200 : Nat)) ≤ 100) := by
  constructor
  · intro b hb
    rw [List.eq_of_mem_replicate hb]
    omega
  · rw [audioAverage]
    norm_num [List.sum_replicate]

/-- C8 amended: the audio level of a sample of byte-valued frequency
bins always lies in the 0–255 range (and hence the 80-threshold sits on
a 0–255, not 0–100, scale). -/
theorem spec_C8_amended (bins : List Nat) (h : ∀ b ∈ bins, b ≤ 255) :
    0 ≤ audioAverage bins ∧ audioAverage bins ≤ 255 := by
  rw [audioAverage]
  constructor
  · apply div_nonneg <;> positivity
  · by_cases hb : bins = []
    · subst hb
      simp
    · have hlen : 0 < (bins.length : ℚ) := by
        have h1 : 0 < bins.length := List.length_pos.mpr hb
        exact_mod_cast h1
      rw [div_le_iff₀ hlen]
      have h1 : bins.sum ≤ bins.length * 255 := by
        have := List.sum_le_card_nsmul bins 255 h
        simpa [smul_eq_mul] using this
      have h2 : (bins.sum : ℚ) ≤ (bins.length : ℚ) * 255 := by exact_mod_cast h1
      linarith

theorem spec_C8_witness :
    (∀ b ∈ [(100 : Nat)], b ≤ 255) ∧
    (0 ≤ audioAverage [100] ∧ audioAverage [100] ≤ 255) :=
  ⟨by decide, spec_C8_amended [100] (by decide)⟩

/-- C9: a failed start (permission denied, no device, other fault)
leaves the session exactly as it was except for the recorded error
reason (and the permission flag): it stays out of Recording, keeps its
duration, transcript and highlights, and records a descriptive error;
and an unsupported environment makes start a no-op. -/
theorem spec_C9 (s : SessionState) (err : StartError) (h : s.isRecording = false) :
    (onStartFail s err).isRecording = false ∧
    (onStartFail s err).isPaused = s.isPaused ∧
    (onStartFail s err).duration = s.duration ∧
    (onStartFail s err).transcript = s.transcript ∧
    (onStartFail s err).highlights = s.highlights ∧
    (onStartFail s err).error.isSome = true ∧
    (s.isSupported = false → onStartOk s = s) := by
  cases err <;>
    exact ⟨h, rfl, rfl, rfl, rfl, rfl, fun h2 => by rw [onStartOk, if_neg]; rw [h2]; simp⟩

theorem spec_C9_witness :
    (onStartFail initialState StartError.notAllowed).isRecording = false ∧
    (onStartFail initialState StartError.notAllowed).duration = 0 ∧
    (onStartFail initialState StartError.notAllowed).transcript = [] ∧
    (onStartFail initialState StartError.notAllowed).highlights = [] ∧
    (onStartFail initialState StartError.notAllowed).error.isSome = true := by
  have h := spec_C9 initialState StartError.notAllowed rfl
  exact ⟨h.1, h.2.2.1, h.2.2.2.1, h.2.2.2.2.1, h.2.2.2.2.2.1⟩

/-- The property every entry pushed by `extractKeywords` satisfies: it
is a punctuation-stripped token of length at least 2 occurring at some
index of the whitespace split, and either the preceding token contains
a highlight keyword or the stripped token occurs at least twice in the
text. -/
def kwSound (text w : List Char) : Prop :=
  2 ≤ w.length ∧
    ∃ iw ∈ (splitWs text).enum, stripPunct iw.2 = w ∧
      (prevHasKeyword (splitWs text) iw.1 = true ∨ 2 ≤ countOccs w text)

theorem mem_kwStep (text : List Char) (words : List (List Char))
    (acc : List (List Char)) (iw : Nat × List Char) (w : List Char)
    (hw : w ∈ kwStep text words acc iw) :
    w ∈ acc ∨ (w = stripPunct iw.2 ∧ 2 ≤ (stripPunct iw.2).length ∧
      (prevHasKeyword words iw.1 = true ∨ 2 ≤ countOccs (stripPunct iw.2) text)) := by
  simp only [kwStep] at hw
  split at hw
  case isTrue h2 =>
    split at hw
    case isTrue hp =>
      split at hw
      case isTrue hocc =>
        rcases List.mem_append.mp hw with h1 | h1
        · rcases List.mem_append.mp h1 with h3 | h3
          · exact Or.inl h3
          · exact Or.inr ⟨List.mem_singleton.mp h3, h2, Or.inl hp⟩
        · exact Or.inr ⟨List.mem_singleton.mp h1, h2, Or.inr hocc.1⟩
      case isFalse hocc =>
        rcases List.mem_append.mp hw with h1 | h1
        · exact Or.inl h1
        · exact Or.inr ⟨List.mem_singleton.mp h1, h2, Or.inl hp⟩
    case isFalse hp =>
      split at hw
      case isTrue hocc =>
        rcases List.mem_append.mp hw with h1 | h1
        · exact Or.inl h1
        · exact Or.inr ⟨List.mem_singleton.mp h1, h2, Or.inr hocc.1⟩
      case isFalse hocc => exact Or.inl hw
  case isFalse h2 => exact Or.inl hw

theorem kwsRaw_sound (text : List Char) :
    ∀ w ∈ kwsRaw text, kwSound text w := by
  rw [kwsRaw]
  suffices h : ∀ l : List (Nat × List Char), (∀ p ∈ l, p ∈ (splitWs text).enum) →
      ∀ acc : List (List Char), (∀ w ∈ acc, kwSound text w) →
      ∀ w ∈ l.foldl (kwStep text (splitWs text)) acc, kwSound text w by
    exact h (splitWs text).enum (fun p hp => hp) [] (by simp)
  intro l
  induction l with
  | nil => intro _ acc hacc w hw; exact hacc w hw
  | cons p l ih =>
    intro hl acc hacc w hw
    simp only [List.foldl_cons] at hw
    refine ih (fun q hq => hl q (List.mem_cons_of_mem p hq)) _ ?_ w hw
    intro v hv
    rcases mem_kwStep text (splitWs text) acc p v hv with h1 | ⟨heq, h2, h3⟩
    · exact hacc v h1
    · subst heq
      exact ⟨h2, ⟨p, hl p (List.mem_cons_self p l), rfl, h3⟩⟩

theorem mem_dedupFirstAux (seen l : List (List Char)) (w : List Char)
    (hw : w ∈ dedupFirstAux seen l) : w ∈ l := by
  induction l generalizing seen with
  | nil => simp [dedupFirstAux] at hw
  | cons a l ih =>
    rw [dedupFirstAux] at hw
    split at hw
    · exact List.mem_cons_of_mem a (ih seen hw)
    · rcases List.mem_cons.mp hw with h | h
      · exact h ▸ List.mem_cons_self a l
      · exact List.mem_cons_of_mem a (ih (a :: seen) h)

theorem not_mem_seen_of_mem_dedupFirstAux (seen l : List (List Char)) (w : List Char)
    (hw : w ∈ dedupFirstAux seen l) : w ∉ seen := by
  induction l generalizing seen with
  | nil => simp [dedupFirstAux] at hw
  | cons a l ih =>
    rw [dedupFirstAux] at hw
    split at hw
    · exact ih seen hw
    case isFalse hns =>
      rcases List.mem_cons.mp hw with h | h
      · exact h ▸ hns
      · intro hseen
        exact ih (a :: seen) h (List.mem_cons_of_mem a hseen)

theorem dedupFirstAux_nodup (seen l : List (List Char)) :
    (dedupFirstAux seen l).Nodup := by
  induction l generalizing seen with
  | nil => simp [dedupFirstAux]
  | cons a l ih =>
    rw [dedupFirstAux]
    split
    · exact ih seen
    · refine List.nodup_cons.mpr ⟨?_, ih (a :: seen)⟩
      intro hmem
      exact not_mem_seen_of_mem_dedupFirstAux (a :: seen) l a hmem
        (List.mem_cons_self a seen)

theorem dedupFirstAux_sublist (seen l : List (List Char)) :
    List.Sublist (dedupFirstAux seen l) l := by
  induction l generalizing seen with
  | nil => simp [dedupFirstAux]
  | cons a l ih =>
    rw [dedupFirstAux]
    split
    · exact (ih seen).trans (List.sublist_cons_self a l)
    · exact List.Sublist.cons₂ a (ih (a :: seen))

/-- The text witnessing that the keyword-adjacency rule loses out to
the cap of five: five distinct repeated tokens are discovered first,
then "하하하" follows the keyword "중요". -/
def cexText : List Char :=
  ("가나 가나다 다라 다라마 마바 마바사 사아 사아자 자차 자차카 중요 하하하").toList

/-- C4 fails as stated: in `cexText` the token at index 11, "하하하",
is preceded by a token containing the highlight keyword "중요" and is
length ≥ 2 after stripping, yet it is not among the returned keywords,
because five distinct repeated tokens were discovered first and the
final cap of five drops it. -/
theorem spec_C4_counterexample :
    (splitWs cexText).getD 10 [] = ['중', '요'] ∧
    stripPunct ((splitWs cexText).getD 11 []) = ['하', '하', '하'] ∧
    prevHasKeyword (splitWs cexText) 11 = true ∧
    2 ≤ (['하', '하', '하'] : List Char).length ∧
    ['하', '하', '하'] ∉ extractKeywords cexText := by
  decide

/-- C4 amended: `extractKeywords` returns at most 5 entries, without
duplicates, in first-discovery order (a subsequence of the raw
discovery sequence), and every returned entry is a stripped token of
length ≥ 2 satisfying the adjacency-or-repetition rule; but a
qualifying token is not guaranteed to appear once five distinct entries
were already discovered. -/
theorem spec_C4_amended (text : List Char) :
    (extractKeywords text).length ≤ 5 ∧
    (extractKeywords text).Nodup ∧
    List.Sublist (extractKeywords text) (kwsRaw text) ∧
    ∀ w ∈ extractKeywords text, kwSound text w := by
  have hsub : List.Sublist (extractKeywords text) (kwsRaw text) := by
    rw [extractKeywords, dedupFirst]
    exact (List.take_sublist 5 _).trans (dedupFirstAux_sublist [] (kwsRaw text))
  refine ⟨?_, ?_, hsub, ?_⟩
  · rw [extractKeywords]
    exact List.length_take_le 5 _
  · rw [extractKeywords]
    exact (List.take_sublist 5 _).nodup (dedupFirstAux_nodup [] (kwsRaw text))
  · intro w hw
    exact kwsRaw_sound text w (hsub.subset hw)

theorem spec_C4_witness :
    kwSound (("가나 가나").toList) ['가', '나'] :=
  (spec_C4_amended (("가나 가나").toList)).2.2.2 ['가', '나'] (by decide)

end LectureMate
